import Mathlib

/-!
Verification of the flatten-and-resolve engine of the read-yaml action.

The development shallowly embeds the core of `src/multi_read_yaml/index.js`
(shared, up to duplication, with `src/index.ts`): the variable-substitution
loop `replaceVariables`, the flattening traversal `resolveFields` together
with its eager `.array` side outputs, the post-traversal filter/emit loop,
and (modelled from the spec, since the `deepmerge` dependency is not part of
the repository sources) the multi-document merge.

Strings are modelled by Lean `String`; scanning works on the underlying
`List Char`.  JavaScript's `String.prototype.replace` applies replacement
patterns (`$$`, `$&`, a dollar followed by a backquote, and a dollar followed
by an apostrophe) inside the replacement string; `applyRepl` embeds that
behaviour.  The `while (match !== null)` loop of the source has no intrinsic
termination bound, so it is embedded as a single step function `substStep`
plus a fuel-indexed iterator `substRun`; `Res.spin` marks fuel exhaustion
(i.e. the source loop has not finished within the given number of
iterations).
-/

/-- A YAML document tree as the JavaScript code observes it: scalar strings,
numbers, booleans, null, arrays, and objects (ordered key/value lists). -/
inductive Value : Type where
  | str (s : String)
  | num (n : Int)
  | bool (b : Bool)
  | null
  | seq (xs : List Value)
  | map (kvs : List (String × Value))

/-- JavaScript string coercion `String(v)` as used by `value.replace(match[0],
resolved[varName])`.  The traversal stores non-object leaves in `resolved`,
plus the empty object that a null leaf turns into (`typeof null ===
"object"`), which renders as `[object Object]`; the `seq` branch (arrays
join their elements with commas) is unreachable from the engine but kept
total. -/
def Value.toStr : Value → String
  | .str s => s
  | .num n => toString n
  | .bool b => if b then "true" else "false"
  | .null => "null"
  | .seq xs => String.intercalate "," (seqStrs xs)
  | .map _ => "[object Object]"
where
  seqStrs : List Value → List String
    | [] => []
    | v :: vs => Value.toStr v :: seqStrs vs

/-- JavaScript truthiness of a value, as tested by `if (!resolved[varName])`:
the empty string, zero, `false` and `null` are falsy; arrays and objects are
always truthy. -/
def Value.truthy : Value → Bool
  | .str s => s ≠ ""
  | .num n => n ≠ 0
  | .bool b => b
  | .null => false
  | .seq _ => true
  | .map _ => true

/-- First-match association-list lookup, modelling `resolved[varName]` /
property access on a plain object. -/
def lookupKV (k : String) : List (String × Value) → Option Value
  | [] => none
  | (k1, v) :: rest => if k1 = k then some v else lookupKV k rest

/-- Property assignment `obj[k] = v` on a plain object: an existing key keeps
its insertion position and is overwritten, a new key is appended. -/
def insertKV (k : String) (v : Value) : List (String × Value) → List (String × Value)
  | [] => [(k, v)]
  | (k1, v1) :: rest => if k1 = k then (k, v) :: rest else (k1, v1) :: insertKV k v rest

/-- Outcome of a fuel-bounded computation: a result, a thrown error message,
or fuel exhaustion (`spin`, meaning the source loop is still running). -/
inductive Res (α : Type) : Type where
  | ok (a : α)
  | fail (msg : String)
  | spin

def Res.map (f : α → β) : Res α → Res β
  | .ok a => .ok (f a)
  | .fail m => .fail m
  | .spin => .spin

/-- Split a character list at its first `)`; returns the characters before it
and the characters after it, or `none` if there is no `)`. -/
def splitClose : List Char → Option (List Char × List Char)
  | [] => none
  | c :: rest =>
    if c = ')' then some ([], rest)
    else (splitClose rest).map fun p => (c :: p.1, p.2)

/-- Whether a match of `\$\(([^\)]+)\)` starts at the head of the list:
returns the captured name (nonempty, free of `)`) and the characters after
the closing parenthesis. -/
def matchHere : List Char → Option (List Char × List Char)
  | '$' :: '(' :: rest =>
    match splitClose rest with
    | some (nm, rest2) => if nm.isEmpty then none else some (nm, rest2)
    | none => none
  | _ => none

/-- Leftmost match of the regular expression `\$\(([^\)]+)\)` (as in
`value.match(/\$\(([^\)]+)\)/)`): try each start position left to right.
Returns `(before, name, after)` such that the input is
`before ++ "$(" ++ name ++ ")" ++ after` and no earlier start position
admits a match. -/
def findVar : List Char → Option (List Char × List Char × List Char)
  | [] => none
  | c :: rest =>
    match matchHere (c :: rest) with
    | some (nm, a) => some ([], nm, a)
    | none => (findVar rest).map fun x => (c :: x.1, x.2)

/-- JavaScript `String.prototype.replace` replacement-pattern processing of
the replacement string: `$$` inserts a dollar, `$&` inserts the matched
substring, a dollar followed by a backquote (`Char.ofNat 96`) inserts the
part of the string before the match, a dollar followed by an apostrophe
(`Char.ofNat 39`) inserts the part after the match; any other use of `$` is
literal. -/
def applyRepl (matched before after : List Char) : List Char → List Char
  | [] => []
  | '$' :: rest =>
    match rest with
    | [] => ['$']
    | c :: rest2 =>
      if c = '$' then '$' :: applyRepl matched before after rest2
      else if c = '&' then matched ++ applyRepl matched before after rest2
      else if c = Char.ofNat 96 then before ++ applyRepl matched before after rest2
      else if c = Char.ofNat 39 then after ++ applyRepl matched before after rest2
      else '$' :: c :: applyRepl matched before after rest2
  | c :: rest => c :: applyRepl matched before after rest

/-- The error message thrown by the source:
`` throw new Error(`Variable "${varName}" is not defined`) ``. -/
def undefMsg (name : String) : String :=
  "Variable \"" ++ name ++ "\" is not defined"

/-- One step of the `while (match !== null)` loop of `replaceVariables`:
`done` when no pattern remains, `fail` when the referenced variable is absent
or falsy, otherwise `next` with the first occurrence of the matched substring
replaced (through JavaScript replacement-pattern processing) by the looked-up
value's string form. -/
inductive Step : Type where
  | done (s : String)
  | next (s : String)
  | fail (msg : String)

def substStep (resolved : List (String × Value)) (s : String) : Step :=
  match findVar s.data with
  | none => .done s
  | some (b, n, a) =>
    let name := String.mk n
    match lookupKV name resolved with
    | none => .fail (undefMsg name)
    | some v =>
      if v.truthy then
        .next (String.mk (b ++ applyRepl ('$' :: '(' :: (n ++ [')'])) b a v.toStr.data ++ a))
      else .fail (undefMsg name)

/-- Fuel-bounded iteration of `substStep`: the string-branch loop of
`replaceVariables`. -/
def substRun (resolved : List (String × Value)) : Nat → String → Res String
  | 0, _ => .spin
  | fuel + 1, s =>
    match substStep resolved s with
    | .done s1 => .ok s1
    | .fail m => .fail m
    | .next s1 => substRun resolved fuel s1

mutual

/-- `replaceVariables(value, resolved)` from the source.  The first branch
tests `typeof value === "object"`, which in JavaScript is true for objects,
arrays *and null*: it rebuilds a plain object by recursing over the
enumerable keys (`for (const key in value)`; on an array those keys are the
decimal indices, and on null there are none, so a null value comes back as
the empty object `{}`); on a string it runs the substitution loop; any other
value (number, boolean) is returned as-is. -/
def replaceVariables (resolved : List (String × Value)) (fuel : Nat) : Value → Res Value
  | .map kvs => (replaceVariablesKVs resolved fuel kvs).map .map
  | .seq xs => (replaceVariablesSeq resolved fuel 0 xs).map .map
  | .null => .ok (.map [])
  | .str s => (substRun resolved fuel s).map .str
  | .num n => .ok (.num n)
  | .bool b => .ok (.bool b)

/-- Helper of `replaceVariables` for the object branch. -/
def replaceVariablesKVs (resolved : List (String × Value)) (fuel : Nat) :
    List (String × Value) → Res (List (String × Value))
  | [] => .ok []
  | (k, v) :: rest =>
    match replaceVariables resolved fuel v with
    | .ok v1 =>
      match replaceVariablesKVs resolved fuel rest with
      | .ok rest1 => .ok ((k, v1) :: rest1)
      | .fail m => .fail m
      | .spin => .spin
    | .fail m => .fail m
    | .spin => .spin

/-- Helper of `replaceVariables` for arrays: `for..in` over an array
enumerates the decimal index strings, so the result is a plain object keyed
by indices. -/
def replaceVariablesSeq (resolved : List (String × Value)) (fuel : Nat) (i : Nat) :
    List Value → Res (List (String × Value))
  | [] => .ok []
  | v :: rest =>
    match replaceVariables resolved fuel v with
    | .ok v1 =>
      match replaceVariablesSeq resolved fuel (i + 1) rest with
      | .ok rest1 => .ok ((toString i, v1) :: rest1)
      | .fail m => .fail m
      | .spin => .spin
    | .fail m => .fail m
    | .spin => .spin

end

/-- A failure of the traversal: a thrown `Error` message, or fuel exhaustion
of the embedded substitution loop. -/
inductive RunErr : Type where
  | thrown (msg : String)
  | spin
deriving DecidableEq

/-- State of a run: the `resolved` object accumulated by `resolveFields`, and
the ordered list of `(key, value)` pairs handed to `core.setOutput` so far.
Outputs are appended the moment `setOutput` is called in the source — in
particular the `.array` outputs are appended during the traversal itself. -/
structure FState : Type where
  resolved : List (String × Value)
  emitted : List (String × Value)

mutual

/-- The recursive traversal `resolveFields(obj, prefix)`.  For each entry in
document order: objects recurse with an extended dotted prefix; arrays first
emit the raw subtree under `pfx + key + ".array"` and then recurse with the
indices as path segments; any other value is substituted against the current
`resolved` and written to `resolved[pfx + key]`.  A thrown error aborts the
traversal, keeping the state accumulated so far. -/
def resolveFields (fuel : Nat) (st : FState) (pfx : String) :
    List (String × Value) → FState × Option RunErr
  | [] => (st, none)
  | (k, v) :: rest =>
    match procEntry fuel st pfx k v with
    | (st1, some e) => (st1, some e)
    | (st1, none) => resolveFields fuel st1 pfx rest

/-- Processing of a single `[key, value]` entry inside `resolveFields`. -/
def procEntry (fuel : Nat) (st : FState) (pfx k : String) : Value → FState × Option RunErr
  | .map kvs => resolveFields fuel st (pfx ++ k ++ ".") kvs
  | .seq xs =>
    resolveFieldsSeq fuel
      { st with emitted := st.emitted ++ [(pfx ++ k ++ ".array", .seq xs)] }
      (pfx ++ k ++ ".") 0 xs
  | v =>
    match replaceVariables st.resolved fuel v with
    | .ok r => ({ st with resolved := insertKV (pfx ++ k) r st.resolved }, none)
    | .fail m => (st, some (.thrown m))
    | .spin => (st, some .spin)

/-- Traversal of an array value: `Object.entries` on an array yields the
decimal index strings as keys. -/
def resolveFieldsSeq (fuel : Nat) (st : FState) (pfx : String) (i : Nat) :
    List Value → FState × Option RunErr
  | [] => (st, none)
  | v :: rest =>
    match procEntry fuel st pfx (toString i) v with
    | (st1, some e) => (st1, some e)
    | (st1, none) => resolveFieldsSeq fuel st1 pfx (i + 1) rest

end

/-- `pat.isPrefixOf s` on character lists, written out. -/
def startsWithL : List Char → List Char → Bool
  | [], _ => true
  | _ :: _, [] => false
  | p :: ps, c :: cs => p = c && startsWithL ps cs

/-- Whether `pat` occurs as a substring: models `key.match(RegExp(pat, "g"))`
being non-null for a pattern without regular-expression metacharacters (the
model restricts filter patterns to literal strings). -/
def hasSubstr (pat : List Char) : List Char → Bool
  | [] => startsWithL pat []
  | c :: rest => startsWithL pat (c :: rest) || hasSubstr pat rest

/-- Strip `pat` from the front of a list, returning the remainder when the
list starts with `pat`. -/
def stripPre : List Char → List Char → Option (List Char)
  | [], s => some s
  | _ :: _, [] => none
  | p :: ps, c :: cs => if p = c then stripPre ps cs else none

/-- Split a list around the first occurrence of `pat`: returns the part
before the occurrence and the part after it. -/
def splitFirst (pat : List Char) : List Char → Option (List Char × List Char)
  | [] => (stripPre pat []).map fun rem => ([], rem)
  | c :: rest =>
    match stripPre pat (c :: rest) with
    | some rem => some ([], rem)
    | none => (splitFirst pat rest).map fun x => (c :: x.1, x.2)

/-- Delete the first occurrence of `pat` and continue scanning after the
deleted region, `fuel` times; each deletion of a nonempty pattern shortens
the list, so `fuel = s.length` always suffices. -/
def removeAllFuel (pat : List Char) : Nat → List Char → List Char
  | 0, s => s
  | n + 1, s =>
    match splitFirst pat s with
    | none => s
    | some (b, rem) => b ++ removeAllFuel pat n rem

/-- `key.replace(RegExp(pat, "g"), '')` for a literal, metacharacter-free
pattern: delete every non-overlapping occurrence, scanning left to right. -/
def removeAll (pat s : List Char) : List Char :=
  removeAllFuel pat s.length s

def hasSubstrS (pat s : String) : Bool := hasSubstr pat.data s.data

def removeAllS (pat s : String) : String := String.mk (removeAll pat.data s.data)

/-- The post-traversal emission loop over `Object.entries(resolved)` with a
present (truthy) filter pattern: keys matching the pattern are emitted under
the key with the pattern matches removed. -/
def filterPhase (pat : String) : List (String × Value) → List (String × Value)
  | [] => []
  | (k, v) :: rest =>
    if hasSubstrS pat k then (removeAllS pat k, v) :: filterPhase pat rest
    else filterPhase pat rest

/-- The whole emission loop: with an empty (falsy) pattern every resolved
entry is emitted under its own key, otherwise `filterPhase` applies. -/
def emitAll (pat : String) (resolved : List (String × Value)) : List (String × Value) :=
  if pat = "" then resolved else filterPhase pat resolved

/-- The pure core of `main` for one already-merged document (a mapping, given
by its entry list): run the traversal; on success append the post-traversal
outputs to the ones already emitted during the traversal, on failure
(`core.setFailed`) emit nothing further. -/
def mainRun (fuel : Nat) (doc : List (String × Value)) (pat : String) :
    List (String × Value) × Option RunErr :=
  match resolveFields fuel ⟨[], []⟩ "" doc with
  | (st, some e) => (st.emitted, some e)
  | (st, none) => (st.emitted ++ emitAll pat st.resolved, none)

/-- Follows the spec's words for `resolveVars` (§4.2 of the specification,
for comparison with `substStep`): "replace the first occurrence of the
matched substring with the looked-up value's string form" — plain insertion
of the value's string form, with no replacement-pattern processing. -/
def substStepSpec (resolved : List (String × Value)) (s : String) : Step :=
  match findVar s.data with
  | none => .done s
  | some (b, n, a) =>
    let name := String.mk n
    match lookupKV name resolved with
    | none => .fail (undefMsg name)
    | some v =>
      if v.truthy then .next (String.mk (b ++ v.toStr.data ++ a))
      else .fail (undefMsg name)

/-- Fuel-bounded iteration of `substStepSpec` (the spec-described loop). -/
def substRunSpec (resolved : List (String × Value)) : Nat → String → Res String
  | 0, _ => .spin
  | fuel + 1, s =>
    match substStepSpec resolved s with
    | .done s1 => .ok s1
    | .fail m => .fail m
    | .next s1 => substRunSpec resolved fuel s1

/-- Follows the spec's words for the filter (§4.3): "outputKey = key with the
first match of pattern removed" — delete only the first occurrence of the
(literal) pattern, for comparison with `removeAll`. -/
def removeFirst (pat s : List Char) : List Char :=
  match splitFirst pat s with
  | some (b, rem) => b ++ rem
  | none => s

def removeFirstS (pat s : String) : String := String.mk (removeFirst pat.data s.data)

/-- Keys present only on the right side, in the right side's order (the part
of a deep merge contributed solely by the later document). -/
def rightOnly (as bs : List (String × Value)) : List (String × Value) :=
  bs.filter fun kv => (lookupKV kv.1 as).isNone

mutual

/-- Modelled from the spec: the repository delegates merging to the external
`deepmerge` package, whose implementation is not part of the sources; §4.1 of
the spec defines it as: if both sides are mappings, merge key-by-key (keys
present in both merge recursively, keys present in one side are taken from
that side); if either side is not a mapping, the later document wins
outright. -/
def deepMerge : Value → Value → Value
  | .map as, .map bs => .map (mergeLeft as bs ++ rightOnly as bs)
  | _, b => b

/-- The left side's keys of a deep merge, each recursively merged with the
right side's value at the same key when present. -/
def mergeLeft : List (String × Value) → List (String × Value) → List (String × Value)
  | [], _ => []
  | (k, v) :: rest, bs =>
    (k, match lookupKV k bs with
        | some w => deepMerge v w
        | none => v) :: mergeLeft rest bs

end

/-- Modelled from the spec: `merge(trees)` folds `deepMerge` left-to-right
starting from the empty mapping (§4.1: `merge([]) = empty mapping`,
`merge([...ts, t]) = deepMerge(merge(ts), t)`). -/
def mergeTrees (ts : List Value) : Value :=
  ts.foldl deepMerge (.map [])

/-- Descend a tree along a list of mapping keys. -/
def getPath : Value → List String → Option Value
  | v, [] => some v
  | .map kvs, k :: rest =>
    match lookupKV k kvs with
    | some v => getPath v rest
    | none => none
  | _, _ :: _ => none

/-- Number of dollar characters in a character list: the termination measure
of the substitution loop when no resolved value reinserts a dollar. -/
def dollars (l : List Char) : Nat := l.countP (fun c => c = '$')

/-- No dollar character occurs in the list. -/
def noDollar (l : List Char) : Bool := l.all (fun c => c ≠ '$')

/-- Every value of the resolved map has a dollar-free string form. -/
def noDollarVals (resolved : List (String × Value)) : Bool :=
  resolved.all fun kv => noDollar kv.2.toStr.data

/-- Whether an output key is an array mark, i.e. ends in `".array"`. -/
def isArrayOut (k : String) : Bool :=
  startsWithL ".array".data.reverse k.data.reverse

/-- All emitted keys are array marks. -/
def allArr (l : List (String × Value)) : Bool := l.all fun kv => isArrayOut kv.1

/-- The README/spec scenario document (flat, with a composite reference). -/
def docScenario : List (String × Value) :=
  [("namespace", .str "ns"), ("location", .str "loc"), ("environment", .str "dev"),
   ("resource_group_name", .str "$(namespace)-$(location)-$(environment)")]

/-- A document whose referenced value is the two-character string `$$`. -/
def docEscape : List (String × Value) := [("a", .str "$$"), ("b", .str "$(a)")]

/-- A document whose referenced value is the replacement pattern `$&`. -/
def docLoop : List (String × Value) := [("a", .str "$&"), ("b", .str "$(a)")]

/-- The nested-array scenario document `{a: {b: [{c: 1}, {c: 2}]}}`. -/
def docNested : List (String × Value) :=
  [("a", .map [("b", .seq [.map [("c", .num 1)], .map [("c", .num 2)]])])]

/-- A document with an array element referencing an earlier key. -/
def docArrayRef : List (String × Value) := [("a", .str "x"), ("b", .seq [.str "$(a)"])]

/-- A document that throws after an array mark has already been emitted. -/
def docFailLate : List (String × Value) := [("a", .seq [.str "1"]), ("b", .str "$(zzz)")]

/-- Invariant of the traversal: outputs only grow, and every output the
traversal appends is an array mark (stated for `resolveFields`). -/
def EmitsExtFields (fuel : Nat) (st : FState) (pfx : String)
    (kvs : List (String × Value)) : Prop :=
  ∃ t, (resolveFields fuel st pfx kvs).1.emitted = st.emitted ++ t ∧ allArr t = true

/-- The same invariant stated for `procEntry`. -/
def EmitsExtEntry (fuel : Nat) (st : FState) (pfx k : String) (v : Value) : Prop :=
  ∃ t, (procEntry fuel st pfx k v).1.emitted = st.emitted ++ t ∧ allArr t = true

/-- The same invariant stated for `resolveFieldsSeq`. -/
def EmitsExtSeq (fuel : Nat) (st : FState) (pfx : String) (i : Nat)
    (xs : List Value) : Prop :=
  ∃ t, (resolveFieldsSeq fuel st pfx i xs).1.emitted = st.emitted ++ t ∧ allArr t = true

theorem splitClose_eq {cs nm rest2 : List Char} (h : splitClose cs = some (nm, rest2)) :
    cs = nm ++ ')' :: rest2 := by
  induction cs generalizing nm with
  | nil => simp [splitClose] at h
  | cons c rest ih =>
    by_cases hc : c = ')'
    · subst hc
      simp [splitClose] at h
      obtain ⟨h1, h2⟩ := h
      subst h1; subst h2; rfl
    · simp [splitClose, hc] at h
      obtain ⟨a1, hs, hcons⟩ := h
      subst hcons
      simpa using ih hs

theorem matchHere_eq {cs nm a : List Char} (h : matchHere cs = some (nm, a)) :
    cs = '$' :: '(' :: (nm ++ ')' :: a) := by
  unfold matchHere at h
  split at h
  · rename_i rest
    split at h
    · rename_i nm1 p hs
      split at h
      · simp at h
      · simp at h
        obtain ⟨h1, h2⟩ := h
        subst h1; subst h2
        rw [splitClose_eq hs]
    · simp at h
  · simp at h

theorem findVar_eq {cs b n a : List Char} (h : findVar cs = some (b, n, a)) :
    cs = b ++ '$' :: '(' :: (n ++ ')' :: a) := by
  induction cs generalizing b n a with
  | nil => simp [findVar] at h
  | cons c rest ih =>
    rw [findVar] at h
    cases hm : matchHere (c :: rest) with
    | some p =>
      rw [hm] at h
      obtain ⟨nm, a1⟩ := p
      simp at h
      obtain ⟨h1, h2, h3⟩ := h
      subst h1; subst h2; subst h3
      simpa using matchHere_eq hm
    | none =>
      rw [hm] at h
      simp at h
      obtain ⟨b1, hf, hcons⟩ := h
      subst hcons
      simpa using ih hf

theorem applyRepl_noDollar {m b a repl : List Char} (h : noDollar repl = true) :
    applyRepl m b a repl = repl := by
  induction repl with
  | nil => rfl
  | cons c rest ih =>
    simp [noDollar] at h
    obtain ⟨hc, hrest⟩ := h
    rw [applyRepl.eq_4 m b a c rest fun hcc => hc hcc]
    rw [ih (by simp [noDollar]; exact hrest)]

theorem lookupKV_mem {k : String} {l : List (String × Value)} {v : Value}
    (h : lookupKV k l = some v) : ∃ k1, (k1, v) ∈ l := by
  induction l with
  | nil => simp [lookupKV] at h
  | cons kv rest ih =>
    obtain ⟨k1, v1⟩ := kv
    by_cases hk : k1 = k
    · simp [lookupKV, hk] at h
      exact ⟨k1, by simp [h]⟩
    · simp [lookupKV, hk] at h
      obtain ⟨k2, hm⟩ := ih h
      exact ⟨k2, by simp [hm]⟩

theorem noDollar_dollars {l : List Char} (h : noDollar l = true) : dollars l = 0 := by
  simp [noDollar] at h
  simp [dollars]
  intro c hc
  exact h c hc

theorem dollars_append (l1 l2 : List Char) : dollars (l1 ++ l2) = dollars l1 + dollars l2 := by
  simp [dollars, List.countP_append]

theorem substStep_next_dollars {resolved : List (String × Value)} {s s1 : String}
    (hnd : noDollarVals resolved = true) (h : substStep resolved s = .next s1) :
    dollars s1.data < dollars s.data := by
  unfold substStep at h
  cases hf : findVar s.data with
  | none => rw [hf] at h; simp at h
  | some x =>
    obtain ⟨b, n, a⟩ := x
    rw [hf] at h
    simp only at h
    cases hl : lookupKV (String.mk n) resolved with
    | none => rw [hl] at h; simp at h
    | some v =>
      rw [hl] at h
      by_cases ht : v.truthy
      · simp [ht] at h
        obtain ⟨k1, hm⟩ := lookupKV_mem hl
        have hv : noDollar v.toStr.data = true := by
          simp [noDollarVals, List.all_eq_true] at hnd
          exact hnd k1 v hm
        rw [applyRepl_noDollar hv] at h
        rw [← h]
        rw [show (String.mk (b ++ (v.toStr.data ++ a))).data = b ++ (v.toStr.data ++ a) from rfl]
        rw [findVar_eq hf]
        have e2 : dollars ('$' :: '(' :: (n ++ ')' :: a)) = dollars n + dollars a + 1 := by
          simp [dollars, List.countP_cons, List.countP_append]
        simp only [dollars_append]
        rw [noDollar_dollars hv, e2]
        omega
      · simp [ht] at h

theorem substRun_no_spin {resolved : List (String × Value)}
    (hnd : noDollarVals resolved = true) :
    ∀ fuel (s : String), dollars s.data < fuel → substRun resolved fuel s ≠ .spin := by
  intro fuel
  induction fuel with
  | zero => intro s h; omega
  | succ n ih =>
    intro s h
    rw [substRun]
    cases hs : substStep resolved s with
    | done s1 => simp
    | fail m => simp
    | next s1 =>
      simp only
      exact ih s1 (by have := substStep_next_dollars hnd hs; omega)

theorem substStep_eq_spec {resolved : List (String × Value)} {s : String}
    (hnd : noDollarVals resolved = true) : substStep resolved s = substStepSpec resolved s := by
  unfold substStep substStepSpec
  cases hf : findVar s.data with
  | none => rfl
  | some x =>
    obtain ⟨b, n, a⟩ := x
    simp only
    cases hl : lookupKV (String.mk n) resolved with
    | none => rfl
    | some v =>
      simp only
      by_cases ht : v.truthy
      · obtain ⟨k1, hm⟩ := lookupKV_mem hl
        have hv : noDollar v.toStr.data = true := by
          simp [noDollarVals, List.all_eq_true] at hnd
          exact hnd k1 v hm
        simp [ht, applyRepl_noDollar hv]
      · simp [ht]

theorem substRun_eq_spec {resolved : List (String × Value)}
    (hnd : noDollarVals resolved = true) :
    ∀ fuel (s : String), substRun resolved fuel s = substRunSpec resolved fuel s := by
  intro fuel
  induction fuel with
  | zero => intro s; rfl
  | succ n ih =>
    intro s
    rw [substRun, substRunSpec, ← substStep_eq_spec hnd]
    cases substStep resolved s with
    | done s1 => rfl
    | fail m => rfl
    | next s1 => exact ih s1

theorem substRun_loop_forever :
    ∀ n, substRun [("a", Value.str "$&")] n "$(a)" = .spin := by
  intro n
  induction n with
  | zero => rfl
  | succ m ih =>
    rw [substRun]
    rw [show substStep [("a", Value.str "$&")] "$(a)" = .next "$(a)" from rfl]
    exact ih

theorem startsWithL_self_append (p r : List Char) : startsWithL p (p ++ r) = true := by
  induction p with
  | nil => rfl
  | cons c cs ih => simp [startsWithL, ih]

theorem isArrayOut_arr (p k : String) : isArrayOut (p ++ k ++ ".array") = true := by
  unfold isArrayOut
  rw [String.data_append, List.reverse_append]
  exact startsWithL_self_append _ _

theorem allArr_append (l1 l2 : List (String × Value)) :
    allArr (l1 ++ l2) = (allArr l1 && allArr l2) := by
  simp [allArr, List.all_append]

theorem emitsCase1 (fuel : Nat) : ∀ (st : FState) (pfx k : String)
    (kvs : List (String × Value)),
    EmitsExtFields fuel st (pfx ++ k ++ ".") kvs → EmitsExtEntry fuel st pfx k (.map kvs) := by
  intro st pfx k kvs ih
  simpa [EmitsExtEntry, EmitsExtFields, procEntry] using ih

theorem emitsCase2 (fuel : Nat) : ∀ (st : FState) (pfx k : String) (xs : List Value),
    EmitsExtSeq fuel
      { resolved := st.resolved, emitted := st.emitted ++ [(pfx ++ k ++ ".array", Value.seq xs)] }
      (pfx ++ k ++ ".") 0 xs →
    EmitsExtEntry fuel st pfx k (.seq xs) := by
  intro st pfx k xs ih
  obtain ⟨t, h1, h2⟩ := ih
  refine ⟨(pfx ++ k ++ ".array", Value.seq xs) :: t, ?_, ?_⟩
  · simp [procEntry]
    simp at h1
    rw [h1]
  · simp [allArr] at h2 ⊢
    exact ⟨isArrayOut_arr pfx k, h2⟩

theorem emitsCase3 (fuel : Nat) : ∀ (st : FState) (pfx k : String) (v : Value),
    (∀ (kvs : List (String × Value)), v = Value.map kvs → False) →
    (∀ (xs : List Value), v = Value.seq xs → False) →
    ∀ (v1 : Value), replaceVariables st.resolved fuel v = Res.ok v1 →
    EmitsExtEntry fuel st pfx k v := by
  intro st pfx k v hm hs v1 hrv
  refine ⟨[], ?_, rfl⟩
  cases v with
  | map kvs => exact absurd rfl (hm kvs)
  | seq xs => exact absurd rfl (hs xs)
  | str s => simp [procEntry, hrv]
  | num n => simp [procEntry, hrv]
  | bool b => simp [procEntry, hrv]
  | null => simp [procEntry, hrv]

theorem emitsCase4 (fuel : Nat) : ∀ (st : FState) (pfx k : String) (v : Value),
    (∀ (kvs : List (String × Value)), v = Value.map kvs → False) →
    (∀ (xs : List Value), v = Value.seq xs → False) →
    ∀ (m : String), replaceVariables st.resolved fuel v = Res.fail m →
    EmitsExtEntry fuel st pfx k v := by
  intro st pfx k v hm hs m hrv
  refine ⟨[], ?_, rfl⟩
  cases v with
  | map kvs => exact absurd rfl (hm kvs)
  | seq xs => exact absurd rfl (hs xs)
  | str s => simp [procEntry, hrv]
  | num n => simp [procEntry, hrv]
  | bool b => simp [procEntry, hrv]
  | null => simp [procEntry, hrv]

theorem emitsCase5 (fuel : Nat) : ∀ (st : FState) (pfx k : String) (v : Value),
    (∀ (kvs : List (String × Value)), v = Value.map kvs → False) →
    (∀ (xs : List Value), v = Value.seq xs → False) →
    replaceVariables st.resolved fuel v = Res.spin →
    EmitsExtEntry fuel st pfx k v := by
  intro st pfx k v hm hs hrv
  refine ⟨[], ?_, rfl⟩
  cases v with
  | map kvs => exact absurd rfl (hm kvs)
  | seq xs => exact absurd rfl (hs xs)
  | str s => simp [procEntry, hrv]
  | num n => simp [procEntry, hrv]
  | bool b => simp [procEntry, hrv]
  | null => simp [procEntry, hrv]

theorem emitsCase6 (fuel : Nat) : ∀ (st : FState) (pfx : String) (i : Nat),
    EmitsExtSeq fuel st pfx i [] :=
  fun st pfx i => ⟨[], by simp [resolveFieldsSeq], rfl⟩

theorem emitsCase7 (fuel : Nat) : ∀ (st : FState) (pfx : String) (i : Nat) (v : Value)
    (vs : List Value) (st1 : FState) (e : RunErr),
    procEntry fuel st pfx (toString i) v = (st1, some e) →
    EmitsExtEntry fuel st pfx (toString i) v →
    EmitsExtSeq fuel st pfx i (v :: vs) := by
  intro st pfx i v vs st1 e hpe ih
  obtain ⟨t, h1, h2⟩ := ih
  rw [hpe] at h1
  exact ⟨t, by simp [resolveFieldsSeq, hpe]; simpa using h1, h2⟩

theorem emitsCase8 (fuel : Nat) : ∀ (st : FState) (pfx : String) (i : Nat) (v : Value)
    (vs : List Value) (st1 : FState),
    procEntry fuel st pfx (toString i) v = (st1, none) →
    EmitsExtEntry fuel st pfx (toString i) v →
    EmitsExtSeq fuel st1 pfx (i + 1) vs →
    EmitsExtSeq fuel st pfx i (v :: vs) := by
  intro st pfx i v vs st1 hpe ih1 ih2
  obtain ⟨t1, h1, h2⟩ := ih1
  obtain ⟨t2, h3, h4⟩ := ih2
  refine ⟨t1 ++ t2, ?_, by simp [allArr_append, h2, h4]⟩
  rw [resolveFieldsSeq, hpe]
  simp only
  rw [h3]
  rw [hpe] at h1
  simp at h1
  rw [h1, List.append_assoc]

theorem emitsCase9 (fuel : Nat) : ∀ (st : FState) (pfx : String),
    EmitsExtFields fuel st pfx [] :=
  fun st pfx => ⟨[], by simp [resolveFields], rfl⟩

theorem emitsCase10 (fuel : Nat) : ∀ (st : FState) (pfx k1 : String) (v : Value)
    (rest : List (String × Value)) (st1 : FState) (e : RunErr),
    procEntry fuel st pfx k1 v = (st1, some e) →
    EmitsExtEntry fuel st pfx k1 v →
    EmitsExtFields fuel st pfx ((k1, v) :: rest) := by
  intro st pfx k1 v rest st1 e hpe ih
  obtain ⟨t, h1, h2⟩ := ih
  rw [hpe] at h1
  exact ⟨t, by simp [resolveFields, hpe]; simpa using h1, h2⟩

theorem emitsCase11 (fuel : Nat) : ∀ (st : FState) (pfx k1 : String) (v : Value)
    (rest : List (String × Value)) (st1 : FState),
    procEntry fuel st pfx k1 v = (st1, none) →
    EmitsExtEntry fuel st pfx k1 v →
    EmitsExtFields fuel st1 pfx rest →
    EmitsExtFields fuel st pfx ((k1, v) :: rest) := by
  intro st pfx k1 v rest st1 hpe ih1 ih2
  obtain ⟨t1, h1, h2⟩ := ih1
  obtain ⟨t2, h3, h4⟩ := ih2
  refine ⟨t1 ++ t2, ?_, by simp [allArr_append, h2, h4]⟩
  rw [resolveFields, hpe]
  simp only
  rw [h3]
  rw [hpe] at h1
  simp at h1
  rw [h1, List.append_assoc]

theorem resolveFields_emits (fuel : Nat) : ∀ (st : FState) (pfx : String)
    (kvs : List (String × Value)), EmitsExtFields fuel st pfx kvs :=
  resolveFields.induct fuel (EmitsExtFields fuel) (EmitsExtEntry fuel) (EmitsExtSeq fuel)
    (emitsCase1 fuel) (emitsCase2 fuel) (emitsCase3 fuel) (emitsCase4 fuel) (emitsCase5 fuel)
    (emitsCase6 fuel) (emitsCase7 fuel) (emitsCase8 fuel) (emitsCase9 fuel) (emitsCase10 fuel)
    (emitsCase11 fuel)

theorem resolveFieldsSeq_emits (fuel : Nat) : ∀ (st : FState) (pfx : String) (i : Nat)
    (xs : List Value), EmitsExtSeq fuel st pfx i xs :=
  resolveFieldsSeq.induct fuel (EmitsExtFields fuel) (EmitsExtEntry fuel) (EmitsExtSeq fuel)
    (emitsCase1 fuel) (emitsCase2 fuel) (emitsCase3 fuel) (emitsCase4 fuel) (emitsCase5 fuel)
    (emitsCase6 fuel) (emitsCase7 fuel) (emitsCase8 fuel) (emitsCase9 fuel) (emitsCase10 fuel)
    (emitsCase11 fuel)

theorem lookupKV_append (k : String) (l1 l2 : List (String × Value)) :
    lookupKV k (l1 ++ l2) =
      match lookupKV k l1 with
      | some v => some v
      | none => lookupKV k l2 := by
  induction l1 with
  | nil => simp [lookupKV]
  | cons kv rest ih =>
    obtain ⟨k1, v1⟩ := kv
    by_cases hk : k1 = k
    · simp [lookupKV, hk]
    · simp [lookupKV, hk, ih]

theorem lookupKV_mergeLeft (k : String) (as bs : List (String × Value)) :
    lookupKV k (mergeLeft as bs) =
      (lookupKV k as).map fun v =>
        match lookupKV k bs with
        | some w => deepMerge v w
        | none => v := by
  induction as with
  | nil => simp [lookupKV, mergeLeft]
  | cons kv rest ih =>
    obtain ⟨k1, v1⟩ := kv
    by_cases hk : k1 = k
    · subst hk
      simp [lookupKV, mergeLeft]
    · simp [lookupKV, mergeLeft, hk, ih]

theorem deepMerge_empty (v : Value) : deepMerge (Value.map []) v = v := by
  cases v with
  | map kvs =>
    simp [deepMerge, mergeLeft, rightOnly, lookupKV]
  | str s => rfl
  | num n => rfl
  | bool b => rfl
  | null => rfl
  | seq xs => rfl

theorem getPath_deepMerge_seq : ∀ (p : List String) (a b : Value) (xs ys : List Value),
    getPath a p = some (.seq xs) → getPath b p = some (.seq ys) →
    getPath (deepMerge a b) p = some (.seq ys) := by
  intro p
  induction p with
  | nil =>
    intro a b xs ys ha hb
    simp [getPath] at ha hb
    subst ha; subst hb
    rfl
  | cons k rest ih =>
    intro a b xs ys ha hb
    cases a with
    | map as =>
      cases b with
      | map bs =>
        rw [getPath] at ha hb
        cases hla : lookupKV k as with
        | none => rw [hla] at ha; simp at ha
        | some va =>
          rw [hla] at ha
          simp only at ha
          cases hlb : lookupKV k bs with
          | none => rw [hlb] at hb; simp at hb
          | some vb =>
            rw [hlb] at hb
            simp only at hb
            rw [show deepMerge (Value.map as) (Value.map bs) =
              Value.map (mergeLeft as bs ++ rightOnly as bs) from rfl]
            rw [getPath, lookupKV_append, lookupKV_mergeLeft, hla, hlb]
            simp only [Option.map_some]
            exact ih va vb xs ys ha hb
      | str s => simp [getPath] at hb
      | num n => simp [getPath] at hb
      | bool b1 => simp [getPath] at hb
      | null => simp [getPath] at hb
      | seq zs => simp [getPath] at hb
    | str s => simp [getPath] at ha
    | num n => simp [getPath] at ha
    | bool b1 => simp [getPath] at ha
    | null => simp [getPath] at ha
    | seq zs => simp [getPath] at ha

theorem filterPhase_eq (pat : String) (l : List (String × Value)) :
    filterPhase pat l =
      (l.filter fun kv => hasSubstrS pat kv.1).map fun kv => (removeAllS pat kv.1, kv.2) := by
  induction l with
  | nil => rfl
  | cons kv rest ih =>
    obtain ⟨k, v⟩ := kv
    by_cases h : hasSubstrS pat k
    · simp [filterPhase, h, List.filter_cons, ih]
    · simp [filterPhase, h, List.filter_cons, ih]

/-- Processing a sequence entry emits the raw subtree under the `.array` key
first, before any output produced by the recursion into the elements. -/
theorem procEntry_seq_head (fuel : Nat) (st : FState) (pfx k : String) (xs : List Value) :
    ∃ t, (procEntry fuel st pfx k (Value.seq xs)).1.emitted =
      st.emitted ++ ((pfx ++ k ++ ".array", Value.seq xs) :: t) := by
  obtain ⟨t, h1, h2⟩ := resolveFieldsSeq_emits fuel
    ⟨st.resolved, st.emitted ++ [(pfx ++ k ++ ".array", Value.seq xs)]⟩ (pfx ++ k ++ ".") 0 xs
  refine ⟨t, ?_⟩
  rw [show procEntry fuel st pfx k (Value.seq xs) = resolveFieldsSeq fuel
    ⟨st.resolved, st.emitted ++ [(pfx ++ k ++ ".array", Value.seq xs)]⟩ (pfx ++ k ++ ".") 0 xs
    from rfl]
  rw [h1]
  simp

/-- C1, counterexample to the claim as stated: in the document
`{a: "$$", b: "$(a)"}` every reference names an already-written key, and the
claim's algorithm ("replace the first occurrence with the looked-up value's
string form", embedded as `substRunSpec`) yields `b = "$$"` — but the code
(JavaScript `replace` treats `$$` in the replacement as an escape for a
single dollar) yields `b = "$"`. -/
theorem claim1_counterexample :
    (resolveFields 9 ⟨[], []⟩ "" docEscape).1.resolved =
      [("a", Value.str "$$"), ("b", Value.str "$")]
    ∧ substRunSpec [("a", Value.str "$$")] 9 "$(a)" = .ok "$$"
    ∧ ("$" : String) ≠ "$$" :=
  ⟨rfl, rfl, by decide⟩

/-- C1, as amended: provided no already-resolved value's string form contains
a dollar character, the code's substitution loop coincides exactly with the
spec's described algorithm (repeatedly find the leftmost `$(name)` pattern,
replace the first occurrence with the looked-up value's string form, rescan);
and the flat scenario document resolves to the map given in the claim. -/
theorem claim1_resolution (resolved : List (String × Value))
    (h : noDollarVals resolved = true) :
    (∀ (fuel : Nat) (s : String), substRun resolved fuel s = substRunSpec resolved fuel s)
    ∧ (resolveFields 9 ⟨[], []⟩ "" docScenario).1.resolved =
        [("namespace", Value.str "ns"), ("location", Value.str "loc"),
         ("environment", Value.str "dev"), ("resource_group_name", Value.str "ns-loc-dev")] :=
  ⟨substRun_eq_spec h, rfl⟩

/-- Witness for C1: a concrete resolved map satisfying the dollar-free
hypothesis, on which the code loop and the spec loop agree. -/
theorem claim1_resolution_witness :
    noDollarVals [("a", Value.str "x")] = true
    ∧ substRun [("a", Value.str "x")] 4 "$(a)-$(a)" =
        substRunSpec [("a", Value.str "x")] 4 "$(a)-$(a)" :=
  ⟨by decide, (claim1_resolution [("a", Value.str "x")] (by decide)).1 4 "$(a)-$(a)"⟩

/-- C3 (merge modelled from the spec, the `deepmerge` dependency not being
part of the sources): when the same mapping path holds a sequence in both
documents, the merge of the two documents holds exactly the later document's
sequence at that path. -/
theorem claim3_later_sequence_wins (a b : Value) (p : List String) (xs ys : List Value)
    (ha : getPath a p = some (.seq xs)) (hb : getPath b p = some (.seq ys)) :
    getPath (mergeTrees [a, b]) p = some (.seq ys) := by
  rw [show mergeTrees [a, b] = deepMerge (deepMerge (Value.map []) a) b from rfl,
    deepMerge_empty]
  exact getPath_deepMerge_seq p a b xs ys ha hb

/-- Witness for C3: two concrete documents with a sequence at the same key;
the merge holds the second document's sequence, not a concatenation. -/
theorem claim3_witness :
    getPath (mergeTrees [Value.map [("k", Value.seq [Value.num 1])],
        Value.map [("k", Value.seq [Value.num 2, Value.num 3])]]) ["k"] =
      some (Value.seq [Value.num 2, Value.num 3]) :=
  claim3_later_sequence_wins _ _ ["k"] [Value.num 1] [Value.num 2, Value.num 3] rfl rfl

/-- C4, counterexample to the claim as stated: in `{a: ["1"], b: "$(zzz)"}`
the run fails on `b`, yet the emitter has already received the `a.array`
output — one pair, not zero. -/
theorem claim4_counterexample :
    mainRun 9 docFailLate "" =
      ([("a.array", Value.seq [Value.str "1"])],
        some (.thrown "Variable \"zzz\" is not defined"))
    ∧ (mainRun 9 docFailLate "").1.length ≠ 0 :=
  ⟨rfl, by decide⟩

/-- C4, as amended: on any failing run no resolved-map entry is emitted — the
post-traversal emission loop never runs, so every output the emitter received
is an eagerly emitted array mark (a key ending in `".array"`). -/
theorem claim4_failure_emits_only_array_marks (fuel : Nat)
    (doc : List (String × Value)) (pat : String) (e : RunErr)
    (hfail : (mainRun fuel doc pat).2 = some e) :
    allArr (mainRun fuel doc pat).1 = true := by
  have hext := resolveFields_emits fuel ⟨[], []⟩ "" doc
  unfold EmitsExtFields at hext
  obtain ⟨t, h1, h2⟩ := hext
  unfold mainRun at hfail ⊢
  cases hrf : resolveFields fuel ⟨[], []⟩ "" doc with
  | mk st err =>
    rw [hrf] at hfail h1
    cases err with
    | none => simp at hfail
    | some e2 =>
      simp only
      simp at h1
      rw [h1]
      exact h2

/-- Witness for C4: the failing run of the counterexample document indeed
emits only array-marked keys. -/
theorem claim4_witness :
    (mainRun 9 docFailLate "").2 = some (.thrown "Variable \"zzz\" is not defined")
    ∧ allArr (mainRun 9 docFailLate "").1 = true :=
  ⟨rfl, claim4_failure_emits_only_array_marks 9 docFailLate ""
    (.thrown "Variable \"zzz\" is not defined") rfl⟩

/-- C5: the substitution loop does not always terminate.  With the document
`{a: "$&", b: "$(a)"}` the resolved value of `a` is the JavaScript
replacement pattern `$&`, which `replace` expands to the matched substring
`$(a)` itself: the step function maps `"$(a)"` to `"$(a)"` and the loop runs
forever (every fuel bound is exhausted), so the whole run hangs instead of
returning or throwing. -/
theorem claim5_nonterminating_loop :
    substStep [("a", Value.str "$&")] "$(a)" = .next "$(a)"
    ∧ (∀ n, substRun [("a", Value.str "$&")] n "$(a)" = .spin)
    ∧ (∀ fuel, (mainRun fuel docLoop "").2 = some RunErr.spin) := by
  refine ⟨rfl, substRun_loop_forever, ?_⟩
  intro fuel
  cases fuel with
  | zero => rfl
  | succ m =>
    have ha : substRun [] (m + 1) "$&" = .ok "$&" := by rw [substRun]; rfl
    have hb := substRun_loop_forever (m + 1)
    simp [mainRun, docLoop, resolveFields, procEntry, replaceVariables, Res.map,
      insertKV, ha, hb]

/-- C6, counterexample to the claim as stated: for `{a: {b: [{c:1},{c:2}]}}`
the Resolved Map does not contain `a.b.array` — the whole-array entry goes to
the emitter as a side output, while the Resolved Map holds exactly the
per-element entries. -/
theorem claim6_counterexample :
    lookupKV "a.b.array" (resolveFields 9 ⟨[], []⟩ "" docNested).1.resolved = none
    ∧ (resolveFields 9 ⟨[], []⟩ "" docNested).1.resolved =
        [("a.b.0.c", Value.num 1), ("a.b.1.c", Value.num 2)]
    ∧ (resolveFields 9 ⟨[], []⟩ "" docNested).1.emitted =
        [("a.b.array", Value.seq [Value.map [("c", Value.num 1)],
          Value.map [("c", Value.num 2)]])] :=
  ⟨rfl, rfl, rfl⟩

/-- C6, as amended: every sequence reached at path `p` produces both
representations — the whole-array value is emitted as a side output under
`p + ".array"` (first, before the element outputs), and the per-element
entries `p.0, p.1, …` go into the Resolved Map; for the scenario document the
Resolved Map contains `a.b.0.c = 1` and `a.b.1.c = 2` while `a.b.array`
carries the whole array as an emitted output. -/
theorem claim6_dual_representation :
    (∀ (fuel : Nat) (st : FState) (pfx k : String) (xs : List Value), ∃ t,
      (procEntry fuel st pfx k (Value.seq xs)).1.emitted =
        st.emitted ++ ((pfx ++ k ++ ".array", Value.seq xs) :: t))
    ∧ resolveFields 9 ⟨[], []⟩ "" docNested =
        (⟨[("a.b.0.c", Value.num 1), ("a.b.1.c", Value.num 2)],
          [("a.b.array", Value.seq [Value.map [("c", Value.num 1)],
            Value.map [("c", Value.num 2)]])]⟩, none) :=
  ⟨procEntry_seq_head, rfl⟩

/-- C7, counterexample to the claim as stated: a null leaf is not written
unchanged.  JavaScript's `typeof null === "object"` sends it into
`replaceVariables`' object-rebuild branch, whose `for..in` over null
iterates zero times, so the traversal writes the empty object `{}` to the
Resolved Map in place of null. -/
theorem claim7_counterexample :
    (procEntry 9 ⟨[], []⟩ "" "n" Value.null).1.resolved = [("n", Value.map [])]
    ∧ Value.map [] ≠ Value.null :=
  ⟨rfl, fun h => Value.noConfusion h⟩

/-- C7, as amended: a number or boolean leaf passes through
`replaceVariables` untouched and the traversal writes it to the Resolved Map
unchanged — no substitution is attempted on non-strings; a null leaf,
however, hits the object branch (`typeof null === "object"`) and is written
as the empty mapping instead of null. -/
theorem claim7_scalar_leaf_behavior :
    (∀ (resolved : List (String × Value)) (fuel : Nat) (n : Int),
      replaceVariables resolved fuel (.num n) = .ok (.num n))
    ∧ (∀ (resolved : List (String × Value)) (fuel : Nat) (b : Bool),
        replaceVariables resolved fuel (.bool b) = .ok (.bool b))
    ∧ (∀ (resolved : List (String × Value)) (fuel : Nat),
        replaceVariables resolved fuel .null = .ok (.map []))
    ∧ (∀ (fuel : Nat) (st : FState) (pfx k : String) (n : Int),
        procEntry fuel st pfx k (.num n) =
          ({ st with resolved := insertKV (pfx ++ k) (.num n) st.resolved }, none))
    ∧ (∀ (fuel : Nat) (st : FState) (pfx k : String) (b : Bool),
        procEntry fuel st pfx k (.bool b) =
          ({ st with resolved := insertKV (pfx ++ k) (.bool b) st.resolved }, none))
    ∧ (∀ (fuel : Nat) (st : FState) (pfx k : String),
        procEntry fuel st pfx k .null =
          ({ st with resolved := insertKV (pfx ++ k) (Value.map []) st.resolved }, none)) :=
  ⟨fun _ _ _ => rfl, fun _ _ _ => rfl, fun _ _ => rfl,
   fun _ _ _ _ _ => rfl, fun _ _ _ _ _ => rfl, fun _ _ _ _ => rfl⟩

/-- C8, counterexample to the claim as stated: with (literal) pattern `"x"`
and resolved key `axbxc`, the code emits the key with *every* match deleted
(`abc`), not the key with only the first match deleted (`abxc`). -/
theorem claim8_counterexample :
    filterPhase "x" [("axbxc", Value.str "v")] = [("abc", Value.str "v")]
    ∧ removeFirstS "x" "axbxc" = "abxc"
    ∧ ("abc" : String) ≠ "abxc" :=
  ⟨rfl, rfl, by decide⟩

/-- C8, as amended (filter patterns modelled as literal, metacharacter-free
strings): with a present pattern, exactly the entries whose key contains the
pattern are emitted, each under the key with every non-overlapping match of
the pattern deleted (the `g`-flag replace), keeping its value. -/
theorem claim8_filter_deletes_every_match (pat : String) (l : List (String × Value)) :
    filterPhase pat l =
      (l.filter fun kv => hasSubstrS pat kv.1).map fun kv => (removeAllS pat kv.1, kv.2) :=
  filterPhase_eq pat l

/-- C9 (merge modelled from the spec, the `deepmerge` dependency not being
part of the sources): the fold of `deepMerge` is associative in the claimed
sense, and is not commutative — two single-key documents with different
values merge to the later one's value, so swapping them changes the result. -/
theorem claim9_merge_assoc_not_comm :
    (∀ a b c : Value, mergeTrees [a, b, c] = mergeTrees [mergeTrees [a, b], c])
    ∧ mergeTrees [Value.map [("k", Value.str "1")], Value.map [("k", Value.str "2")]] ≠
        mergeTrees [Value.map [("k", Value.str "2")], Value.map [("k", Value.str "1")]] := by
  constructor
  · intro a b c
    show deepMerge (deepMerge (deepMerge (Value.map []) a) b) c =
      deepMerge (deepMerge (Value.map []) (deepMerge (deepMerge (Value.map []) a) b)) c
    simp only [deepMerge_empty]
  · intro h
    rw [show mergeTrees [Value.map [("k", Value.str "1")], Value.map [("k", Value.str "2")]] =
        Value.map [("k", Value.str "2")] from rfl,
      show mergeTrees [Value.map [("k", Value.str "2")], Value.map [("k", Value.str "1")]] =
        Value.map [("k", Value.str "1")] from rfl] at h
    injection h with h1
    injection h1 with h2 h3
    have h4 := congrArg Prod.snd h2
    injection h4 with h5
    exact absurd h5 (by decide)

/-- C10: the whole-array side output carries the raw document subtree with no
substitution applied inside it (the traversal emits the subtree value itself
before recursing), while the per-element Resolved Map entries are
substituted: in `{a: "x", b: ["$(a)"]}` the emitted `b.array` still holds
`"$(a)"` but `b.0` resolves to `"x"`. -/
theorem claim10_array_mark_raw :
    (∀ (fuel : Nat) (st : FState) (pfx k : String) (xs : List Value), ∃ t,
      (procEntry fuel st pfx k (Value.seq xs)).1.emitted =
        st.emitted ++ ((pfx ++ k ++ ".array", Value.seq xs) :: t))
    ∧ mainRun 9 docArrayRef "" =
        ([("b.array", Value.seq [Value.str "$(a)"]), ("a", Value.str "x"),
          ("b.0", Value.str "x")], none) :=
  ⟨procEntry_seq_head, rfl⟩

/-- Witness for C8: the filter characterization applied at a concrete map and
pattern. -/
theorem claim8_witness :
    filterPhase "x" [("axbxc", Value.str "v"), ("q", Value.num 7)] =
      (([("axbxc", Value.str "v"), ("q", Value.num 7)].filter
        fun kv => hasSubstrS "x" kv.1).map fun kv => (removeAllS "x" kv.1, kv.2)) :=
  claim8_filter_deletes_every_match "x" [("axbxc", Value.str "v"), ("q", Value.num 7)]
